import Mathlib

/-!
# kvdb: serialised access to a key-value backend

A shallow embedding of `src/kvdb/kvdb.go` and the properties of its
dispatch core: the range scan of `handleGetRangeReq`, the delivery of
continuations by the three handlers, the FIFO worker loop `kvdbRoutine`,
the queue-length monitor `checkOperationQueueLen` and `Initialize`.

Conventions of the embedding
* Go `string` is `String`; the comparison `a >= b` of Go strings is `strGE`,
  the lexicographic order on the characters (it agrees with Go's byte-wise
  order on valid UTF-8).
* Go `error` is `Option GoError`, `none` being `nil`.
* A Go callback value is `Option Nat`: `none` is the `nil` func, `some c`
  the continuation named `c`.
* `[]KVItem` is `List KVItem`; the `nil` slice is `[]`.
* The effects of the worker are recorded as a list of `Event`s in the order
  in which they happen.
* The `for` loop of `handleGetRangeReq` need not terminate, so it is run with
  fuel: `none` means that the loop was still running when the fuel ran out.
-/

namespace kvdb

/-! ## Data model -/

/-- Go's `a >= b` on strings. -/
def strGE (a b : String) : Bool := decide (b.toList ≤ a.toList)

/-- A non-nil Go `error` value. -/
abbrev GoError := String

/-- The type `KVItem` of package `types`: a stored key with its value. -/
structure KVItem where
  Key : String
  Val : String
deriving DecidableEq, Repr

/-- The pair `(KVItem, error)` returned by one call of `Iterator.Next()`. -/
structure NextResult where
  item : KVItem
  err : Option GoError
deriving DecidableEq, Repr

/-- The interface `Iterator` of package `types`. An iterator is stateful and
forward-only: `Next k` is what the call number `k` (counted from 0) of
`Next()` returns. -/
structure Iterator where
  Next : Nat → NextResult

/-- The interface `KVDBEngine`, over a backend state `σ` that every call may
read and change. -/
structure KVDBEngine (σ : Type) where
  Get : String → σ → (String × Option GoError) × σ
  Put : String → String → σ → Option GoError × σ
  Find : String → σ → Iterator × σ

/-- The request type `getReq`. -/
structure getReq where
  key : String
  callback : Option Nat
deriving DecidableEq, Repr

/-- The request type `putReq`. -/
structure putReq where
  key : String
  val : String
  callback : Option Nat
deriving DecidableEq, Repr

/-- The request type `getRangeReq`. -/
structure getRangeReq where
  beginKey : String
  endKey : String
  callback : Option Nat
deriving DecidableEq, Repr

/-- What is stored in the operation queue: a pointer to one of the three
request types. -/
inductive Request where
  | get (r : getReq)
  | put (r : putReq)
  | getRange (r : getRangeReq)
deriving DecidableEq, Repr

/-- The continuation of a request. -/
def Request.callback : Request → Option Nat
  | .get r => r.callback
  | .put r => r.callback
  | .getRange r => r.callback

/-- The arguments a continuation is applied to: `KVDBGetCallback(val, err)`,
`KVDBPutCallback(err)` or `KVDBGetRangeCallback(items, err)`. -/
inductive CallbackArgs where
  | get (val : String) (err : Option GoError)
  | put (err : Option GoError)
  | getRange (items : List KVItem) (err : Option GoError)
deriving DecidableEq, Repr

/-- The observable effects of the worker. -/
inductive Event where
  /-- The call `kvdbEngine.Get(key)` has returned. -/
  | engineGet (key : String)
  /-- The call `kvdbEngine.Put(key, val)` has returned. -/
  | enginePut (key val : String)
  /-- The call `kvdbEngine.Find(key)` has returned. -/
  | engineFind (key : String)
  /-- One call `it.Next()` has returned. -/
  | iteratorNext
  /-- The call `timer.AddCallback(delay, func() { cb(args) })`: the
  continuation is handed to the callback scheduler. -/
  | addCallback (delay : Nat) (cb : Nat) (args : CallbackArgs)
  /-- The continuation is called directly, `cb(args)`, by the worker. -/
  | call (cb : Nat) (args : CallbackArgs)
  /-- The call `opmon.StartOperation(name)`. -/
  | startOperation (name : String)
  /-- The call `op.Finish(time.Millisecond * ms)`. -/
  | finish (name : String) (ms : Nat)
deriving DecidableEq, Repr

/-- The event is a backend call: `Get`, `Put`, `Find` or `Next`. -/
def Event.isBackendCall : Event → Bool
  | .engineGet _ => true
  | .enginePut _ _ => true
  | .engineFind _ => true
  | .iteratorNext => true
  | _ => false

/-- The event hands the continuation to the scheduler. -/
def Event.isScheduled : Event → Bool
  | .addCallback _ _ _ => true
  | _ => false

/-- The event calls the continuation in the worker itself. -/
def Event.isInlineCall : Event → Bool
  | .call _ _ => true
  | _ => false

/-- The event delivers a continuation, either way. -/
def Event.isDelivery (e : Event) : Bool := e.isScheduled || e.isInlineCall

/-! ## The handlers -/

/-- `handleGetReq`: one `Get`, then the continuation (when not nil) is
scheduled with delay 0. -/
def handleGetReq {σ : Type} (kvdbEngine : KVDBEngine σ) (r : getReq) (s : σ) :
    List Event × σ :=
  let res := kvdbEngine.Get r.key s
  match r.callback with
  | some cb => ([.engineGet r.key, .addCallback 0 cb (.get res.1.1 res.1.2)], res.2)
  | none => ([.engineGet r.key], res.2)

/-- `handlePutReq`: one `Put`, then the continuation (when not nil) is
scheduled with delay 0. -/
def handlePutReq {σ : Type} (kvdbEngine : KVDBEngine σ) (r : putReq) (s : σ) :
    List Event × σ :=
  let res := kvdbEngine.Put r.key r.val s
  match r.callback with
  | some cb => ([.enginePut r.key r.val, .addCallback 0 cb (.put res.1)], res.2)
  | none => ([.enginePut r.key r.val], res.2)

/-- How the `for` loop of `handleGetRangeReq` is left. -/
inductive ScanExit where
  /-- Through `break`, with the items appended so far. -/
  | broke (items : List KVItem)
  /-- Through `return` in the `err != nil` branch. -/
  | returned (err : GoError)
deriving DecidableEq, Repr

/-- The `for` loop of `handleGetRangeReq`. `k` is the number of `Next()`
calls made so far and `items` the slice built so far. The result is the
total number of `Next()` calls and the way the loop was left. The test
`item.Key >= endKey` comes first; `err` is looked at only after it. -/
def scanLoop (it : Iterator) (endKey : String) :
    Nat → Nat → List KVItem → Option (Nat × ScanExit)
  | 0, _, _ => none
  | fuel + 1, k, items =>
    let r := it.Next k
    if strGE r.item.Key endKey then
      some (k + 1, .broke items)
    else
      match r.err with
      | some e => some (k + 1, .returned e)
      | none => scanLoop it endKey fuel (k + 1) (items ++ [r.item])

/-- What `handleGetRangeReq` does once the loop is left: in the error branch
`callback(nil, err)`, after `break` `callback(items, nil)`, both called
directly and both only when the callback is not nil. -/
def rangeDelivery (callback : Option Nat) : ScanExit → List Event
  | .broke items =>
    match callback with
    | some cb => [.call cb (.getRange items none)]
    | none => []
  | .returned e =>
    match callback with
    | some cb => [.call cb (.getRange [] (some e))]
    | none => []

/-- `handleGetRangeReq`: `Find(beginKey)`, the scan loop, the delivery. -/
def handleGetRangeReq {σ : Type} (kvdbEngine : KVDBEngine σ) (fuel : Nat)
    (r : getRangeReq) (s : σ) : Option (List Event × σ) :=
  let f := kvdbEngine.Find r.beginKey s
  match scanLoop f.1 r.endKey fuel 0 [] with
  | none => none
  | some (n, ex) =>
    some (.engineFind r.beginKey :: List.replicate n .iteratorNext
            ++ rangeDelivery r.callback ex, f.2)

/-- The dispatch of `kvdbRoutine` on the type of the request. -/
def handleReq {σ : Type} (kvdbEngine : KVDBEngine σ) (fuel : Nat) :
    Request → σ → Option (List Event × σ)
  | .get r, s => some (handleGetReq kvdbEngine r s)
  | .put r, s => some (handlePutReq kvdbEngine r s)
  | .getRange r, s => handleGetRangeReq kvdbEngine fuel r s

/-- The name under which `kvdbRoutine` times a request. -/
def opName : Request → String
  | .get _ => "kvdb.get"
  | .put _ => "kvdb.put"
  | .getRange _ => "kvdb.getRange"

/-! ## The operation queue and the worker loop -/

/-- The state the producers and the worker share: the queue `kvdbOpQueue`
(`Push` appends at the tail, `Pop` takes the head), the state of the backend
behind `kvdbEngine`, the events of the worker so far, the variable
`recentWarnedQueueLen` and the lengths warned about so far. -/
structure World (σ : Type) where
  kvdbOpQueue : List Request
  backend : σ
  trace : List Event
  recentWarnedQueueLen : Int
  warned : List Int

/-- `checkOperationQueueLen` on the length `qlen` read from the queue and
the current value of `recentWarnedQueueLen`: the length warned about, if
any, and the new value of `recentWarnedQueueLen`. Go's `%` is `Int.tmod`. -/
def checkOperationQueueLen (qlen recentWarnedQueueLen : Int) : Option Int × Int :=
  if qlen > 100 ∧ qlen.tmod 100 = 0 ∧ recentWarnedQueueLen ≠ qlen then
    (some qlen, qlen)
  else
    (none, recentWarnedQueueLen)

/-- The monitor run over the lengths it observes in turn: the lengths warned
about, in order. -/
def monitorWarnings : Int → List Int → List Int
  | _, [] => []
  | w, q :: qs =>
    match (checkOperationQueueLen q w).1 with
    | some x => x :: monitorWarnings (checkOperationQueueLen q w).2 qs
    | none => monitorWarnings (checkOperationQueueLen q w).2 qs

/-- The value of `recentWarnedQueueLen` after the monitor has observed the
lengths in turn. -/
def monitorState : Int → List Int → Int
  | w, [] => w
  | w, q :: qs => monitorState (checkOperationQueueLen q w).2 qs

/-- `kvdbOpQueue.Push(req)`. -/
def push {σ : Type} (req : Request) (w : World σ) : World σ :=
  { w with kvdbOpQueue := w.kvdbOpQueue ++ [req] }

/-- `checkOperationQueueLen()` on the shared state. -/
def checkLen {σ : Type} (w : World σ) : World σ :=
  let c := checkOperationQueueLen (w.kvdbOpQueue.length : Int) w.recentWarnedQueueLen
  { w with
    recentWarnedQueueLen := c.2
    warned := match c.1 with
      | some q => w.warned ++ [q]
      | none => w.warned }

/-- The public operation `Get(key, callback)`. -/
def Get {σ : Type} (key : String) (callback : Option Nat) (w : World σ) : World σ :=
  checkLen (push (.get ⟨key, callback⟩) w)

/-- The public operation `Put(key, val, callback)`. -/
def Put {σ : Type} (key val : String) (callback : Option Nat) (w : World σ) : World σ :=
  checkLen (push (.put ⟨key, val, callback⟩) w)

/-- The public operation `GetRange(beginKey, endKey, callback)`. -/
def GetRange {σ : Type} (beginKey endKey : String) (callback : Option Nat)
    (w : World σ) : World σ :=
  checkLen (push (.getRange ⟨beginKey, endKey, callback⟩) w)

/-- One iteration of the `for` loop of `kvdbRoutine`: `Pop`, the operation
is started, the request is handled, the operation is finished with the
threshold of 100 ms. `none` when `Pop` blocks on the empty queue or the
handler is still scanning when the fuel runs out. -/
def kvdbRoutineStep {σ : Type} (kvdbEngine : KVDBEngine σ) (fuel : Nat)
    (w : World σ) : Option (World σ) :=
  match w.kvdbOpQueue with
  | [] => none
  | req :: rest =>
    match handleReq kvdbEngine fuel req w.backend with
    | none => none
    | some (evs, s) =>
      some { w with
        kvdbOpQueue := rest
        backend := s
        trace := w.trace ++ (.startOperation (opName req) :: evs
                              ++ [.finish (opName req) 100]) }

/-- The atomic steps of the system: the push of a public operation, the
length check that follows it, one iteration of the worker. -/
inductive Action where
  | push (req : Request)
  | checkLen
  | work (fuel : Nat)
deriving DecidableEq, Repr

/-- One step. An iteration of the worker that cannot complete (empty queue,
or a scan that outlasts the fuel) leaves the state as it is. -/
def step {σ : Type} (kvdbEngine : KVDBEngine σ) (w : World σ) : Action → World σ
  | .push req => push req w
  | .checkLen => checkLen w
  | .work fuel => (kvdbRoutineStep kvdbEngine fuel w).getD w

/-- A schedule, an interleaving of the steps of the producers and of the
worker, run from `w`. -/
def exec {σ : Type} (kvdbEngine : KVDBEngine σ) (w : World σ) (sched : List Action) :
    World σ :=
  sched.foldl (step kvdbEngine) w

/-- The requests a schedule pushes, in the order of the pushes. -/
def pushedBy : List Action → List Request
  | [] => []
  | .push req :: rest => req :: pushedBy rest
  | _ :: rest => pushedBy rest

/-- The state before any operation: empty queue, no events,
`recentWarnedQueueLen = 0`. -/
def World.init {σ : Type} (s : σ) : World σ :=
  { kvdbOpQueue := [], backend := s, trace := [], recentWarnedQueueLen := 0, warned := [] }

/-- The backend calls among the events. -/
def backendCalls (evs : List Event) : List Event := evs.filter Event.isBackendCall

/-- The backend calls of one request: `Get(key)`, `Put(key, val)`, or
`Find(beginKey)` followed by one or more `Next()`. -/
def IsCallsOf : Request → List Event → Prop
  | .get r, evs => evs = [.engineGet r.key]
  | .put r, evs => evs = [.enginePut r.key r.val]
  | .getRange r, evs => ∃ n, evs = .engineFind r.beginKey :: List.replicate (n + 1) .iteratorNext

/-! ## Initialization -/

/-- The value returned by `config.GetKVDB()`. The field `Type` of the source
is `Type_` here. -/
structure KVDBConfig where
  Type_ : String
  Url : String
  DB : String
  Collection : String
deriving DecidableEq, Repr

/-- The package variables `Initialize` writes: `kvdbEngine` (`none` is the
nil interface), `kvdbOpQueue` (`none` until `NewSyncQueue()`), and whether
`go netutil.ServeForever(kvdbRoutine)` has been executed. -/
structure Globals (E : Type) where
  kvdbEngine : Option E
  kvdbOpQueue : Option (List Request)
  workerStarted : Bool
deriving DecidableEq, Repr

/-- The package variables before `Initialize`. -/
def Globals.zero (E : Type) : Globals E :=
  { kvdbEngine := none, kvdbOpQueue := none, workerStarted := false }

/-- How `Initialize` ends: it returns, or `gwlog.Panic(err)` aborts it. -/
inductive InitResult (E : Type) where
  | returned (g : Globals E)
  | panicked (err : GoError) (g : Globals E)
deriving DecidableEq, Repr

/-- `Initialize`. `OpenMongoKVDB` is the constructor of the mongodb backend;
it returns an engine and an error. -/
def Initialize {E : Type} (OpenMongoKVDB : String → String → String → Option E × Option GoError)
    (kvdbCfg : KVDBConfig) (g : Globals E) : InitResult E :=
  if kvdbCfg.Type_ = "" then
    .returned g
  else
    let g1 : InitResult E :=
      if kvdbCfg.Type_ = "mongodb" then
        let r := OpenMongoKVDB kvdbCfg.Url kvdbCfg.DB kvdbCfg.Collection
        match r.2 with
        | some err => .panicked err { g with kvdbEngine := r.1 }
        | none => .returned { g with kvdbEngine := r.1 }
      else
        .returned g
    match g1 with
    | .panicked err g2 => .panicked err g2
    | .returned g2 => .returned { g2 with kvdbOpQueue := some [], workerStarted := true }

/-! ## Test iterators and a test backend -/

/-- The iterator that returns the results of `rs` in turn and `last` at every
call after them. -/
def Iterator.ofList (rs : List NextResult) (last : NextResult) : Iterator :=
  ⟨fun k => rs.getD k last⟩

/-- A successful `Next()`. -/
def NextResult.ok (key val : String) : NextResult := ⟨⟨key, val⟩, none⟩

/-- Modelled from the spec: the backend engine (package `backend/mongodb` is
not part of the sources) over a store kept as a list of items, in the order
of the keys. `Get` returns the stored value, or an error when the key is
absent; `Put` replaces or adds the key; `Find(key)` returns a cursor at the
first stored key `>= key` that yields the items in order. What `Next()`
returns once the data has run out is not fixed by the spec and is the
parameter `eod`. -/
def storeEngine (eod : NextResult) : KVDBEngine (List KVItem) where
  Get := fun key s =>
    match s.find? (fun i => i.Key == key) with
    | some i => ((i.Val, none), s)
    | none => (("", some "not found"), s)
  Put := fun key val s =>
    (none, s.filter (fun i => !strGE i.Key key) ++ ⟨key, val⟩
      :: s.filter (fun i => strGE i.Key key && i.Key != key))
  Find := fun key s =>
    (Iterator.ofList ((s.filter (fun i => strGE i.Key key)).map (fun i => ⟨i, none⟩)) eod, s)

/-- The store `{a:1, b:2, c:3, d:4, e:5}`. -/
def store5 : List KVItem :=
  [⟨"a", "1"⟩, ⟨"b", "2"⟩, ⟨"c", "3"⟩, ⟨"d", "4"⟩, ⟨"e", "5"⟩]

/-- The end-of-data result used in the examples: the zero item with an
error. -/
def eofResult : NextResult := ⟨⟨"", ""⟩, some "EOF"⟩

/-- The backend whose `Find` returns the iterator `it`, whatever the key;
`Get` and `Put` fail. It has no state. -/
def engineOf (it : Iterator) : KVDBEngine Unit where
  Get := fun _ s => (("", some "no data"), s)
  Put := fun _ _ s => (some "read only", s)
  Find := fun _ s => (it, s)

/-- From call number `k` on, the calls of `Next()` succeed with the items of
`is`, one after the other. -/
def Yields (it : Iterator) : Nat → List KVItem → Prop
  | _, [] => True
  | k, i :: is => it.Next k = ⟨i, none⟩ ∧ Yields it (k + 1) is

/-! ## Go's string comparison -/

theorem strGE_eq_true_iff (a b : String) : strGE a b = true ↔ b ≤ a := by
  simp [strGE, String.le_iff_toList_le]

theorem strGE_eq_false_iff (a b : String) : strGE a b = false ↔ a < b := by
  rw [← not_le, ← strGE_eq_true_iff]
  simp

/-! ## The scan loop -/

theorem scanLoop_yields (it : Iterator) (endKey : String) (fuel : Nat) :
    ∀ (is : List KVItem) (k : Nat) (items : List KVItem), Yields it k is →
      (∀ i ∈ is, i.Key < endKey) →
      scanLoop it endKey (fuel + is.length) k items
        = scanLoop it endKey fuel (k + is.length) (items ++ is) := by
  intro is
  induction is with
  | nil => intro k items _ _; simp
  | cons i is ih =>
    intro k items hy hlt
    obtain ⟨h0, hrest⟩ := hy
    have hi : strGE i.Key endKey = false :=
      (strGE_eq_false_iff _ _).2 (hlt i (List.mem_cons_self _ _))
    have hlen : fuel + (i :: is).length = (fuel + is.length) + 1 := by
      simp [Nat.add_assoc]
    rw [hlen]
    simp only [scanLoop, h0, hi]
    rw [ih (k + 1) (items ++ [i]) hrest (fun j hj => hlt j (List.mem_cons_of_mem _ hj))]
    simp [Nat.add_assoc, Nat.add_comm 1]

theorem scanLoop_count (it : Iterator) (endKey : String) :
    ∀ (fuel k : Nat) (items : List KVItem) (n : Nat) (ex : ScanExit),
      scanLoop it endKey fuel k items = some (n, ex) → k < n := by
  intro fuel
  induction fuel with
  | zero => intro k items n ex h; simp [scanLoop] at h
  | succ fuel ih =>
    intro k items n ex h
    simp only [scanLoop] at h
    split at h
    · simp at h; omega
    · split at h
      · simp at h; omega
      · have := ih _ _ _ _ h
        omega

theorem scanLoop_broke_inv (it : Iterator) (endKey : String) (P : KVItem → Prop)
    (hP : ∀ k, (it.Next k).err = none → strGE (it.Next k).item.Key endKey = false →
      P (it.Next k).item) :
    ∀ (fuel k : Nat) (items : List KVItem) (n : Nat) (out : List KVItem),
      (∀ i ∈ items, P i) → scanLoop it endKey fuel k items = some (n, .broke out) →
      ∀ i ∈ out, P i := by
  intro fuel
  induction fuel with
  | zero => intro k items n out _ h; simp [scanLoop] at h
  | succ fuel ih =>
    intro k items n out hitems h
    simp only [scanLoop] at h
    split at h
    · simp at h
      obtain ⟨_, rfl⟩ := h
      exact hitems
    · rename_i hge
      split at h
      · simp at h
      · rename_i herr
        refine ih _ _ _ _ ?_ h
        intro i hi
        rcases List.mem_append.1 hi with hi | hi
        · exact hitems i hi
        · rw [List.mem_singleton] at hi
          subst hi
          exact hP k herr (by simpa using hge)

theorem scanLoop_never_ends (it : Iterator) (endKey : String)
    (h : ∀ k, strGE (it.Next k).item.Key endKey = false ∧ (it.Next k).err = none) :
    ∀ (fuel k : Nat) (items : List KVItem), scanLoop it endKey fuel k items = none := by
  intro fuel
  induction fuel with
  | zero => intro k items; rfl
  | succ fuel ih =>
    intro k items
    simp only [scanLoop, (h k).1, (h k).2]
    exact ih _ _

theorem scanLoop_break_at_endKey (it : Iterator) (endKey : String) (fuel : Nat)
    (is : List KVItem) (hyields : Yields it 0 is) (hbelow : ∀ i ∈ is, i.Key < endKey)
    (hstop : endKey ≤ (it.Next is.length).item.Key) (hfuel : is.length < fuel) :
    scanLoop it endKey fuel 0 [] = some (is.length + 1, .broke is) := by
  obtain ⟨f, rfl⟩ : ∃ f, fuel = (f + 1) + is.length := ⟨fuel - is.length - 1, by omega⟩
  rw [scanLoop_yields it endKey (f + 1) is 0 [] hyields hbelow]
  simp [scanLoop, (strGE_eq_true_iff _ _).2 hstop]

theorem scanLoop_error_below_endKey (it : Iterator) (endKey : String) (fuel : Nat)
    (is : List KVItem) (e : GoError) (hyields : Yields it 0 is)
    (hbelow : ∀ i ∈ is, i.Key < endKey)
    (hkey : (it.Next is.length).item.Key < endKey) (herr : (it.Next is.length).err = some e)
    (hfuel : is.length < fuel) :
    scanLoop it endKey fuel 0 [] = some (is.length + 1, .returned e) := by
  obtain ⟨f, rfl⟩ : ∃ f, fuel = (f + 1) + is.length := ⟨fuel - is.length - 1, by omega⟩
  rw [scanLoop_yields it endKey (f + 1) is 0 [] hyields hbelow]
  simp [scanLoop, (strGE_eq_false_iff _ _).2 hkey, herr]

theorem scanLoop_take_below_endKey (it : Iterator) (endKey : String) (fuel : Nat)
    (is : List KVItem) (hyields : Yields it 0 is) (hbelow : ∀ i ∈ is, i.Key < endKey)
    (hkey : (it.Next is.length).item.Key < endKey) (herr : (it.Next is.length).err = none)
    (hfuel : is.length < fuel) :
    scanLoop it endKey fuel 0 []
      = scanLoop it endKey (fuel - (is.length + 1)) (is.length + 1)
          (is ++ [(it.Next is.length).item]) := by
  obtain ⟨f, rfl⟩ : ∃ f, fuel = (f + 1) + is.length := ⟨fuel - is.length - 1, by omega⟩
  rw [scanLoop_yields it endKey (f + 1) is 0 [] hyields hbelow]
  have hf : f + 1 + is.length - (is.length + 1) = f := by omega
  simp only [scanLoop, (strGE_eq_false_iff _ _).2 hkey, herr, Nat.zero_add, List.nil_append,
    Bool.false_eq_true, if_false, hf]

theorem scanLoop_broke_extends (it : Iterator) (endKey : String) :
    ∀ (fuel k : Nat) (items : List KVItem) (n : Nat) (out : List KVItem),
      scanLoop it endKey fuel k items = some (n, .broke out) → ∃ more, out = items ++ more := by
  intro fuel
  induction fuel with
  | zero => intro k items n out h; simp [scanLoop] at h
  | succ fuel ih =>
    intro k items n out h
    simp only [scanLoop] at h
    split at h
    · simp at h
      exact ⟨[], by simp [h.2]⟩
    · split at h
      · simp at h
      · obtain ⟨more, hmore⟩ := ih _ _ _ _ h
        exact ⟨(it.Next k).item :: more, by simp [hmore]⟩

/-! ## Range scan: what is delivered -/

/-- C1. Let the cursor returned by `Find(beginKey)` only yield items at or
after `beginKey`. Then every item of a sequence that `handleGetRangeReq`
delivers to the continuation, by a direct call or through the scheduler,
has `beginKey <= key < endKey`, whatever else the cursor produces. -/
theorem handleGetRangeReq_items_in_range {σ : Type} (kvdbEngine : KVDBEngine σ)
    (fuel : Nat) (r : getRangeReq) (s : σ) (evs : List Event) (s1 : σ)
    (hcursor : ∀ k, ((kvdbEngine.Find r.beginKey s).1.Next k).err = none →
      r.beginKey ≤ ((kvdbEngine.Find r.beginKey s).1.Next k).item.Key)
    (hrun : handleGetRangeReq kvdbEngine fuel r s = some (evs, s1)) :
    ∀ (d cb : Nat) (items : List KVItem) (err : Option GoError),
      (Event.call cb (.getRange items err) ∈ evs
        ∨ Event.addCallback d cb (.getRange items err) ∈ evs) →
      ∀ i ∈ items, r.beginKey ≤ i.Key ∧ i.Key < r.endKey := by
  intro d cb items err hmem i hi
  simp only [handleGetRangeReq] at hrun
  split at hrun
  · simp at hrun
  · rename_i n ex hscan
    simp only [Option.some.injEq, Prod.mk.injEq] at hrun
    obtain ⟨hevs, _⟩ := hrun
    subst hevs
    have hin : Event.call cb (.getRange items err) ∈ rangeDelivery r.callback ex := by
      rcases hmem with h | h
      · simpa [List.mem_replicate] using h
      · exfalso
        cases ex <;> cases hc : r.callback <;>
          simp [rangeDelivery, hc, List.mem_replicate] at h
    cases ex with
    | returned e =>
      cases hc : r.callback <;> simp [rangeDelivery, hc] at hin
      obtain ⟨_, rfl, _⟩ := hin
      simp at hi
    | broke out =>
      cases hc : r.callback <;> simp [rangeDelivery, hc] at hin
      obtain ⟨_, rfl, _⟩ := hin
      refine scanLoop_broke_inv (kvdbEngine.Find r.beginKey s).1 r.endKey
        (fun i => r.beginKey ≤ i.Key ∧ i.Key < r.endKey) ?_ fuel 0 [] n _ ?_ hscan i hi
      · intro k herr hlt
        exact ⟨hcursor k herr, (strGE_eq_false_iff _ _).1 hlt⟩
      · simp

/-- C1, an instance: on the store `{a:1, b:2, c:3, d:4, e:5}` the scan of
`["b", "d")` delivers items, and they are all in the range. -/
theorem handleGetRangeReq_items_in_range_witness :
    handleGetRangeReq (storeEngine eofResult) 5 ⟨"b", "d", some 7⟩ store5
        = some ([.engineFind "b", .iteratorNext, .iteratorNext, .iteratorNext,
                  .call 7 (.getRange [⟨"b", "2"⟩, ⟨"c", "3"⟩] none)], store5)
      ∧ ∀ i ∈ [(⟨"b", "2"⟩ : KVItem), ⟨"c", "3"⟩], "b" ≤ i.Key ∧ i.Key < "d" :=
  ⟨by decide,
   handleGetRangeReq_items_in_range (storeEngine eofResult) 5 ⟨"b", "d", some 7⟩ store5
    [.engineFind "b", .iteratorNext, .iteratorNext, .iteratorNext,
      .call 7 (.getRange [⟨"b", "2"⟩, ⟨"c", "3"⟩] none)] store5
    (by
      intro k hk
      have h5 : k < 4 := by
        by_contra hge
        have hd : ((storeEngine eofResult).Find "b" store5).1.Next k = eofResult := by
          show List.getD _ k _ = _
          exact List.getD_eq_default _ _ (by simp at hge; simpa using hge)
        rw [hd] at hk
        simp [eofResult] at hk
      rw [String.le_iff_toList_le]
      interval_cases k <;> decide)
    (by decide) 0 7 [⟨"b", "2"⟩, ⟨"c", "3"⟩] none (Or.inl (by decide))⟩

/-- C2. When the first `n` calls of `Next()` succeed with items `i1..in`
whose keys are all below `endKey` and the next call produces an item with
key `>= endKey`, `handleGetRangeReq` makes exactly `n + 1` calls of `Next()`
and then delivers exactly `[i1, ..., in]`, in that order, with a nil error:
the stopping item and all that follows it are left out. -/
theorem handleGetRangeReq_stops_at_endKey {σ : Type} (kvdbEngine : KVDBEngine σ)
    (fuel : Nat) (r : getRangeReq) (s : σ) (cb : Nat) (is : List KVItem)
    (hcb : r.callback = some cb)
    (hyields : Yields (kvdbEngine.Find r.beginKey s).1 0 is)
    (hbelow : ∀ i ∈ is, i.Key < r.endKey)
    (hstop : r.endKey ≤ ((kvdbEngine.Find r.beginKey s).1.Next is.length).item.Key)
    (hfuel : is.length < fuel) :
    handleGetRangeReq kvdbEngine fuel r s
      = some (.engineFind r.beginKey :: List.replicate (is.length + 1) .iteratorNext
                ++ [.call cb (.getRange is none)], (kvdbEngine.Find r.beginKey s).2) := by
  have hscan := scanLoop_break_at_endKey (kvdbEngine.Find r.beginKey s).1 r.endKey fuel is
    hyields hbelow hstop hfuel
  simp only [handleGetRangeReq, hscan, rangeDelivery, hcb]

/-- C2, the example of the spec: on the store `{a:1, b:2, c:3, d:4, e:5}`,
`GetRange("b", "d")` delivers `[{b,2}, {c,3}]`. -/
theorem handleGetRangeReq_stops_at_endKey_witness :
    handleGetRangeReq (storeEngine eofResult) 3 ⟨"b", "d", some 7⟩ store5
      = some ([.engineFind "b", .iteratorNext, .iteratorNext, .iteratorNext,
                .call 7 (.getRange [⟨"b", "2"⟩, ⟨"c", "3"⟩] none)], store5) :=
  handleGetRangeReq_stops_at_endKey (storeEngine eofResult) 3 ⟨"b", "d", some 7⟩ store5 7
    [⟨"b", "2"⟩, ⟨"c", "3"⟩] rfl ⟨rfl, rfl, trivial⟩
    (by
      intro i hi
      rw [String.lt_iff_toList_lt]
      simp only [List.mem_cons, List.mem_singleton, List.not_mem_nil, or_false] at hi
      rcases hi with rfl | rfl <;> decide)
    (by rw [String.le_iff_toList_le]; decide)
    (by decide)

/-- C3, at the failing input. The range is `["a", "c")`; `Next()` succeeds
with `{a,1}` and `{b,2}` and then fails with the error `read failed`,
returning the item `{z,}` with it. The key of that item is `>= endKey`, the
loop is left through `break` before `err` is looked at, and the continuation
receives the two items and a nil error: the error is lost. The same happens
with the zero item when `endKey` is empty: the first `Next()` fails and the
continuation receives no items and a nil error. -/
theorem handleGetRangeReq_error_lost_past_endKey :
    handleGetRangeReq
        (engineOf (Iterator.ofList [.ok "a" "1", .ok "b" "2", ⟨⟨"z", ""⟩, some "read failed"⟩]
          eofResult)) 5 ⟨"a", "c", some 7⟩ ()
      = some ([.engineFind "a", .iteratorNext, .iteratorNext, .iteratorNext,
                .call 7 (.getRange [⟨"a", "1"⟩, ⟨"b", "2"⟩] none)], ())
    ∧ handleGetRangeReq
        (engineOf (Iterator.ofList [⟨⟨"", ""⟩, some "read failed"⟩] eofResult)) 5
          ⟨"a", "", some 7⟩ ()
      = some ([.engineFind "a", .iteratorNext, .call 7 (.getRange [] none)], ()) := by
  constructor <;> decide

/-! ## Delivery of the continuation -/

/-- C4, at the failing input. `handleGetReq` and `handlePutReq` hand the
continuation to the scheduler with delay 0 and never call it; but
`handleGetRangeReq` calls the continuation directly in the worker, both after
`break` (first scan) and in the error branch (second scan), and schedules
nothing. -/
theorem handleGetRangeReq_calls_continuation_inline :
    (∀ (it : Iterator) (r : getReq), ∀ e ∈ (handleGetReq (engineOf it) r ()).1,
      e.isInlineCall = false)
    ∧ (∀ (it : Iterator) (r : putReq), ∀ e ∈ (handlePutReq (engineOf it) r ()).1,
      e.isInlineCall = false)
    ∧ handleGetRangeReq (engineOf (Iterator.ofList [.ok "a" "1", .ok "c" "3"] eofResult)) 5
          ⟨"a", "b", some 7⟩ ()
        = some ([.engineFind "a", .iteratorNext, .iteratorNext,
                  .call 7 (.getRange [⟨"a", "1"⟩] none)], ())
    ∧ handleGetRangeReq (engineOf (Iterator.ofList [.ok "a" "1"] eofResult)) 5
          ⟨"a", "b", some 7⟩ ()
        = some ([.engineFind "a", .iteratorNext, .iteratorNext,
                  .call 7 (.getRange [] (some "EOF"))], ())
    ∧ Event.isInlineCall (.call 7 (.getRange [⟨"a", "1"⟩] none)) = true
    ∧ Event.isScheduled (.call 7 (.getRange [⟨"a", "1"⟩] none)) = false := by
  refine ⟨?_, ?_, by decide, by decide, rfl, rfl⟩
  · intro it r e he
    cases hc : r.callback <;> simp [handleGetReq, hc] at he
    · subst he; rfl
    · rcases he with rfl | rfl <;> rfl
  · intro it r e he
    cases hc : r.callback <;> simp [handlePutReq, hc] at he
    · subst he; rfl
    · rcases he with rfl | rfl <;> rfl

/-- C5. A request with a non-nil continuation `cb`: the handlers of `Get` and
`Put` requests always complete, and whenever a handler completes (for a
range request: whenever the scan loop terminates) its events are one or more
backend calls followed by exactly one delivery of `cb`, scheduled with delay
0 or called directly. So the continuation is delivered once, not zero times
and not twice, and after the last backend call has returned. -/
theorem handleReq_delivers_exactly_once {σ : Type} (kvdbEngine : KVDBEngine σ)
    (fuel : Nat) (req : Request) (s : σ) (cb : Nat) (hcb : req.callback = some cb) :
    ((∀ r, req ≠ .getRange r) → (handleReq kvdbEngine fuel req s).isSome = true)
    ∧ ∀ (evs : List Event) (s1 : σ), handleReq kvdbEngine fuel req s = some (evs, s1) →
        (evs.filter Event.isDelivery).length = 1
        ∧ ∃ (pre : List Event) (args : CallbackArgs),
            (evs = pre ++ [.addCallback 0 cb args] ∨ evs = pre ++ [.call cb args])
            ∧ pre ≠ []
            ∧ ∀ e ∈ pre, e.isBackendCall = true ∧ e.isDelivery = false := by
  constructor
  · intro hne
    cases req with
    | get r => rfl
    | put r => rfl
    | getRange r => exact absurd rfl (hne r)
  · intro evs s1 h
    cases req with
    | get r =>
      have hc : r.callback = some cb := hcb
      simp only [handleReq, handleGetReq, hc, Option.some.injEq, Prod.mk.injEq] at h
      obtain ⟨rfl, _⟩ := h
      refine ⟨rfl, [.engineGet r.key], _, Or.inl rfl, by simp, ?_⟩
      intro e he
      simp at he
      subst he
      exact ⟨rfl, rfl⟩
    | put r =>
      have hc : r.callback = some cb := hcb
      simp only [handleReq, handlePutReq, hc, Option.some.injEq, Prod.mk.injEq] at h
      obtain ⟨rfl, _⟩ := h
      refine ⟨rfl, [.enginePut r.key r.val], _, Or.inl rfl, by simp, ?_⟩
      intro e he
      simp at he
      subst he
      exact ⟨rfl, rfl⟩
    | getRange r =>
      have hc : r.callback = some cb := hcb
      simp only [handleReq, handleGetRangeReq] at h
      split at h
      · simp at h
      · rename_i n ex hscan
        simp only [Option.some.injEq, Prod.mk.injEq] at h
        obtain ⟨rfl, _⟩ := h
        have hpre : ∀ e ∈ Event.engineFind r.beginKey :: List.replicate n Event.iteratorNext,
            e.isBackendCall = true ∧ e.isDelivery = false := by
          intro e he
          rcases List.mem_cons.1 he with rfl | he
          · exact ⟨rfl, rfl⟩
          · rw [List.eq_of_mem_replicate he]
            exact ⟨rfl, rfl⟩
        have hfil : (Event.engineFind r.beginKey
            :: List.replicate n Event.iteratorNext).filter Event.isDelivery = [] := by
          rw [List.filter_eq_nil_iff]
          intro e he
          simp [(hpre e he).2]
        obtain ⟨args, hargs⟩ : ∃ args, rangeDelivery r.callback ex = [.call cb args] := by
          cases ex <;> simp [rangeDelivery, hc]
        rw [hargs]
        refine ⟨?_, _, args, Or.inr rfl, by simp, hpre⟩
        rw [List.filter_append, hfil]
        rfl

/-- C5, an instance: the scan of `["b", "d")` on the store
`{a:1, b:2, c:3, d:4, e:5}` completes and delivers once, last. -/
theorem handleReq_delivers_exactly_once_witness :
    handleReq (storeEngine eofResult) 3 (.getRange ⟨"b", "d", some 7⟩) store5
      = some ([.engineFind "b", .iteratorNext, .iteratorNext, .iteratorNext,
                .call 7 (.getRange [⟨"b", "2"⟩, ⟨"c", "3"⟩] none)], store5)
    ∧ ((List.filter Event.isDelivery [.engineFind "b", .iteratorNext, .iteratorNext,
          .iteratorNext, .call 7 (.getRange [⟨"b", "2"⟩, ⟨"c", "3"⟩] none)]).length = 1
      ∧ ∃ (pre : List Event) (args : CallbackArgs),
          (([.engineFind "b", .iteratorNext, .iteratorNext, .iteratorNext,
              .call 7 (.getRange [⟨"b", "2"⟩, ⟨"c", "3"⟩] none)] : List Event)
              = pre ++ [.addCallback 0 7 args]
            ∨ ([.engineFind "b", .iteratorNext, .iteratorNext, .iteratorNext,
              .call 7 (.getRange [⟨"b", "2"⟩, ⟨"c", "3"⟩] none)] : List Event)
              = pre ++ [.call 7 args])
          ∧ pre ≠ []
          ∧ ∀ e ∈ pre, e.isBackendCall = true ∧ e.isDelivery = false) :=
  ⟨by decide,
   (handleReq_delivers_exactly_once (storeEngine eofResult) 3
      (.getRange ⟨"b", "d", some 7⟩) store5 7 rfl).2 _ store5 (by decide)⟩

/-! ## The worker loop is FIFO -/

theorem backendCalls_append (xs ys : List Event) :
    backendCalls (xs ++ ys) = backendCalls xs ++ backendCalls ys := by
  simp [backendCalls]

theorem backendCalls_rangeDelivery (callback : Option Nat) (ex : ScanExit) :
    backendCalls (rangeDelivery callback ex) = [] := by
  cases ex <;> cases callback <;> rfl

theorem backendCalls_replicate_next (n : Nat) :
    backendCalls (List.replicate n Event.iteratorNext) = List.replicate n Event.iteratorNext := by
  simp only [backendCalls, List.filter_eq_self]
  intro e he
  rw [List.eq_of_mem_replicate he]
  rfl

theorem handleReq_backendCalls {σ : Type} (kvdbEngine : KVDBEngine σ) (fuel : Nat)
    (req : Request) (s : σ) (evs : List Event) (s1 : σ)
    (h : handleReq kvdbEngine fuel req s = some (evs, s1)) :
    IsCallsOf req (backendCalls evs) := by
  cases req with
  | get r =>
    simp only [handleReq, handleGetReq, Option.some.injEq] at h
    cases hc : r.callback <;> simp only [hc, Prod.mk.injEq] at h <;>
      (obtain ⟨rfl, _⟩ := h; rfl)
  | put r =>
    simp only [handleReq, handlePutReq, Option.some.injEq] at h
    cases hc : r.callback <;> simp only [hc, Prod.mk.injEq] at h <;>
      (obtain ⟨rfl, _⟩ := h; rfl)
  | getRange r =>
    simp only [handleReq, handleGetRangeReq] at h
    split at h
    · simp at h
    · rename_i n ex hscan
      simp only [Option.some.injEq, Prod.mk.injEq] at h
      obtain ⟨rfl, _⟩ := h
      have hn := scanLoop_count _ _ _ _ _ _ _ hscan
      refine ⟨n - 1, ?_⟩
      rw [backendCalls_append, backendCalls_rangeDelivery, List.append_nil]
      have hcons : backendCalls (Event.engineFind r.beginKey :: List.replicate n Event.iteratorNext)
          = Event.engineFind r.beginKey :: backendCalls (List.replicate n Event.iteratorNext) := rfl
      rw [hcons, backendCalls_replicate_next]
      congr 2
      omega

theorem pushedBy_append (xs ys : List Action) :
    pushedBy (xs ++ ys) = pushedBy xs ++ pushedBy ys := by
  induction xs with
  | nil => rfl
  | cons a xs ih => cases a <;> simp [pushedBy, ih]

theorem step_fifo {σ : Type} (kvdbEngine : KVDBEngine σ) (w : World σ) (a : Action)
    (pushed : List Request)
    (h : ∃ processed segs, processed ++ w.kvdbOpQueue = pushed
      ∧ List.Forall₂ IsCallsOf processed segs ∧ backendCalls w.trace = segs.flatten) :
    ∃ processed segs, processed ++ (step kvdbEngine w a).kvdbOpQueue = pushed ++ pushedBy [a]
      ∧ List.Forall₂ IsCallsOf processed segs
      ∧ backendCalls (step kvdbEngine w a).trace = segs.flatten := by
  obtain ⟨processed, segs, hq, hsegs, htrace⟩ := h
  cases a with
  | push req =>
    refine ⟨processed, segs, ?_, hsegs, htrace⟩
    simp [step, push, pushedBy, ← hq]
  | checkLen =>
    refine ⟨processed, segs, ?_, hsegs, htrace⟩
    simpa [step, checkLen, pushedBy] using hq
  | work fuel =>
    have hstep : step kvdbEngine w (.work fuel) = (kvdbRoutineStep kvdbEngine fuel w).getD w := rfl
    have hp : pushedBy [Action.work fuel] = [] := rfl
    rw [hstep, hp, List.append_nil]
    cases hk : kvdbRoutineStep kvdbEngine fuel w with
    | none => exact ⟨processed, segs, hq, hsegs, htrace⟩
    | some w1 =>
      simp only [kvdbRoutineStep] at hk
      split at hk
      · simp at hk
      · rename_i req rest hqueue
        split at hk
        · simp at hk
        · rename_i evs s1 hh
          simp only [Option.some.injEq] at hk
          subst hk
          refine ⟨processed ++ [req], segs ++ [backendCalls evs], ?_, ?_, ?_⟩
          · simp [← hq, hqueue]
          · exact List.rel_append hsegs
              (List.Forall₂.cons (handleReq_backendCalls _ _ _ _ _ _ hh) List.Forall₂.nil)
          · have h1 : backendCalls (Event.startOperation (opName req) :: evs
                ++ [Event.finish (opName req) 100]) = backendCalls evs := by
              simp [backendCalls, Event.isBackendCall]
            simp only [Option.getD_some, backendCalls_append, htrace, List.flatten_append,
              List.flatten_cons, List.flatten_nil, List.append_nil, h1]

theorem exec_fifo {σ : Type} (kvdbEngine : KVDBEngine σ) :
    ∀ (sched : List Action) (w : World σ) (pushed : List Request),
      (∃ processed segs, processed ++ w.kvdbOpQueue = pushed
        ∧ List.Forall₂ IsCallsOf processed segs ∧ backendCalls w.trace = segs.flatten) →
      ∃ processed segs, processed ++ (exec kvdbEngine w sched).kvdbOpQueue
          = pushed ++ pushedBy sched
        ∧ List.Forall₂ IsCallsOf processed segs
        ∧ backendCalls (exec kvdbEngine w sched).trace = segs.flatten := by
  intro sched
  induction sched with
  | nil => intro w pushed h; simpa [exec, pushedBy] using h
  | cons a sched ih =>
    intro w pushed h
    have h1 := ih (step kvdbEngine w a) (pushed ++ pushedBy [a]) (step_fifo kvdbEngine w a pushed h)
    have h2 : pushed ++ pushedBy [a] ++ pushedBy sched = pushed ++ pushedBy (a :: sched) := by
      rw [List.append_assoc, ← pushedBy_append]
      rfl
    rw [h2] at h1
    exact h1

theorem publicOps_are_push_then_check {σ : Type} (kvdbEngine : KVDBEngine σ) (w : World σ)
    (key val beginKey endKey : String) (callback : Option Nat) :
    Get key callback w = exec kvdbEngine w [.push (.get ⟨key, callback⟩), .checkLen]
    ∧ Put key val callback w = exec kvdbEngine w [.push (.put ⟨key, val, callback⟩), .checkLen]
    ∧ GetRange beginKey endKey callback w
        = exec kvdbEngine w [.push (.getRange ⟨beginKey, endKey, callback⟩), .checkLen] :=
  ⟨rfl, rfl, rfl⟩

/-- C6. With the queue a list (`Push` appends at the tail, `Pop` removes the
head), take any interleaving `sched` of pushes, length checks and iterations
of the worker, from the empty queue. The requests pushed are, in the order of
the pushes, the requests the worker has processed followed by the requests
still in the queue; the backend calls observed so far are the calls of the
processed requests, request after request in that order (`Get(key)`,
`Put(key, val)`, or `Find(beginKey)` and its `Next()` calls), so that
no request is skipped, duplicated or reordered and the calls of two requests
are not interleaved. Once the queue is empty every pushed request has been
processed; and an iteration of the worker whose handler completes processes
the head of the queue. -/
theorem kvdbRoutine_processes_in_push_order {σ : Type} (kvdbEngine : KVDBEngine σ)
    (s : σ) (sched : List Action) :
    (∃ processed segs,
      processed ++ (exec kvdbEngine (World.init s) sched).kvdbOpQueue = pushedBy sched
      ∧ List.Forall₂ IsCallsOf processed segs
      ∧ backendCalls (exec kvdbEngine (World.init s) sched).trace = segs.flatten
      ∧ ((exec kvdbEngine (World.init s) sched).kvdbOpQueue = [] → processed = pushedBy sched))
    ∧ ∀ (fuel : Nat) (req : Request) (rest : List Request) (evs : List Event) (s1 : σ),
        (exec kvdbEngine (World.init s) sched).kvdbOpQueue = req :: rest →
        handleReq kvdbEngine fuel req (exec kvdbEngine (World.init s) sched).backend
          = some (evs, s1) →
        (exec kvdbEngine (World.init s) (sched ++ [.work fuel])).kvdbOpQueue = rest
        ∧ (exec kvdbEngine (World.init s) (sched ++ [.work fuel])).trace
          = (exec kvdbEngine (World.init s) sched).trace
              ++ (.startOperation (opName req) :: evs ++ [.finish (opName req) 100]) := by
  constructor
  · obtain ⟨processed, segs, hq, hsegs, htrace⟩ :=
      exec_fifo kvdbEngine sched (World.init s) [] ⟨[], [], rfl, List.Forall₂.nil, rfl⟩
    rw [List.nil_append] at hq
    refine ⟨processed, segs, hq, hsegs, htrace, ?_⟩
    intro hempty
    rw [hempty, List.append_nil] at hq
    exact hq
  · intro fuel req rest evs s1 hqueue hh
    simp [exec, List.foldl_append, step, kvdbRoutineStep] at hqueue hh ⊢
    simp [hqueue, hh]

/-! ## The queue-length monitor -/

theorem checkOperationQueueLen_warns (q w : Int) (h : q > 100 ∧ q.tmod 100 = 0 ∧ w ≠ q) :
    checkOperationQueueLen q w = (some q, q) := by
  simp [checkOperationQueueLen, h]

theorem checkOperationQueueLen_silent (q w : Int) (h : ¬ (q > 100 ∧ q.tmod 100 = 0 ∧ w ≠ q)) :
    checkOperationQueueLen q w = (none, w) := by
  simp only [checkOperationQueueLen, if_neg h]

theorem monitorState_of_no_warning :
    ∀ (qs : List Int) (w : Int), monitorWarnings w qs = [] → monitorState w qs = w := by
  intro qs
  induction qs with
  | nil => intro w _; rfl
  | cons q qs ih =>
    intro w h
    by_cases hc : q > 100 ∧ q.tmod 100 = 0 ∧ w ≠ q
    · simp [monitorWarnings, checkOperationQueueLen_warns q w hc] at h
    · simp only [monitorWarnings, monitorState, checkOperationQueueLen_silent q w hc] at h ⊢
      exact ih w h

theorem monitorWarnings_append :
    ∀ (qs rs : List Int) (w : Int),
      monitorWarnings w (qs ++ rs)
        = monitorWarnings w qs ++ monitorWarnings (monitorState w qs) rs := by
  intro qs
  induction qs with
  | nil => intro rs w; rfl
  | cons q qs ih =>
    intro rs w
    by_cases hc : q > 100 ∧ q.tmod 100 = 0 ∧ w ≠ q
    · simp [monitorWarnings, monitorState, checkOperationQueueLen_warns q w hc, ih]
    · simp [monitorWarnings, monitorState, checkOperationQueueLen_silent q w hc, ih]

theorem monitorWarnings_chain :
    ∀ (qs : List Int) (w : Int),
      List.Chain (fun a b => a ≠ b) w (monitorWarnings w qs)
      ∧ ∀ x ∈ monitorWarnings w qs, x > 100 ∧ (100 : Int) ∣ x := by
  intro qs
  induction qs with
  | nil => intro w; exact ⟨List.Chain.nil, by simp [monitorWarnings]⟩
  | cons q qs ih =>
    intro w
    by_cases hc : q > 100 ∧ q.tmod 100 = 0 ∧ w ≠ q
    · simp only [monitorWarnings, checkOperationQueueLen_warns q w hc]
      refine ⟨List.Chain.cons hc.2.2 (ih q).1, ?_⟩
      intro x hx
      rcases List.mem_cons.1 hx with rfl | hx
      · exact ⟨hc.1, Int.dvd_of_tmod_eq_zero hc.2.1⟩
      · exact (ih q).2 x hx
    · simp only [monitorWarnings, checkOperationQueueLen_silent q w hc]
      exact ih w

/-- C7, as the code has it. A length of 100 is never warned about, whatever
the last warned length (a warning needs a length greater than 100), so the
lengths 99, 100, 100, 50, 100 give no warning. With 200 in the place of 100:
of the lengths 199, 200, 200, 50, 200 only the first 200 is warned about. In
general, once `q` has been warned about, it is not warned about again for as
long as no other length is warned about in between, however the length moves
meanwhile; after a warning for another length it is warned about again. -/
theorem checkOperationQueueLen_rewarn :
    (∀ w : Int, checkOperationQueueLen 100 w = (none, w))
    ∧ monitorWarnings 0 [99, 100, 100, 50, 100] = []
    ∧ monitorWarnings 0 [199, 200, 200, 50, 200] = [200]
    ∧ (∀ (w q : Int) (qs : List Int), (checkOperationQueueLen q w).1 = some q →
        monitorWarnings q qs = [] → monitorWarnings w (q :: qs ++ [q]) = [q])
    ∧ monitorWarnings 0 [200, 50, 300, 50, 200] = [200, 300, 200] := by
  refine ⟨?_, by decide, by decide, ?_, by decide⟩
  · intro w
    exact checkOperationQueueLen_silent 100 w (by simp)
  · intro w q qs hq hqs
    have hc : q > 100 ∧ q.tmod 100 = 0 ∧ w ≠ q := by
      by_contra hc
      rw [checkOperationQueueLen_silent q w hc] at hq
      simp at hq
    have h1 : monitorWarnings w (q :: (qs ++ [q]))
        = q :: monitorWarnings q (qs ++ [q]) := by
      simp [monitorWarnings, checkOperationQueueLen_warns q w hc]
    rw [List.cons_append, h1, monitorWarnings_append, hqs, monitorState_of_no_warning qs q hqs]
    simp [monitorWarnings, checkOperationQueueLen_silent q q (by simp)]

/-- C7, an instance of the general part: 200 is warned about, then 200 and 50
pass without a warning, and the next 200 is not warned about. -/
theorem checkOperationQueueLen_rewarn_witness :
    monitorWarnings 0 (200 :: [200, 50] ++ [200]) = [200] :=
  checkOperationQueueLen_rewarn.2.2.2.1 0 200 [200, 50] (by decide) (by decide)

/-- C7 as stated fails: the lengths 99, 100, 100, 50, 100 do not give two
warnings for 100 but none; and a length that falls below a warned multiple
of 100 and rises to it again is not warned about again (199, 200, 200, 50,
200 gives one warning, not two). -/
theorem checkOperationQueueLen_rewarn_counterexample :
    monitorWarnings 0 [99, 100, 100, 50, 100] ≠ [100, 100]
    ∧ (monitorWarnings 0 [99, 100, 100, 50, 100]).length = 0
    ∧ monitorWarnings 0 [199, 200, 200, 50, 200] ≠ [200, 200] := by
  decide

/-- C8. `checkOperationQueueLen` warns exactly when `q > 100`, `q` is a
multiple of 100 and `q` differs from the last warned length `w`; the length
it warns about is `q`; when it warns the last warned length becomes `q`, and
when it does not it stays `w`. So over any run of observations every warned
length is a multiple of 100 greater than 100, and no two consecutive warnings
are for the same length. -/
theorem checkOperationQueueLen_spec (q w : Int) :
    ((checkOperationQueueLen q w).1 = some q ↔ q > 100 ∧ (100 : Int) ∣ q ∧ q ≠ w)
    ∧ ((checkOperationQueueLen q w).1 = none ↔ ¬ (q > 100 ∧ (100 : Int) ∣ q ∧ q ≠ w))
    ∧ ((checkOperationQueueLen q w).1 = some q → (checkOperationQueueLen q w).2 = q)
    ∧ ((checkOperationQueueLen q w).1 = none → (checkOperationQueueLen q w).2 = w)
    ∧ ∀ qs : List Int,
        (∀ x ∈ monitorWarnings w qs, x > 100 ∧ (100 : Int) ∣ x)
        ∧ List.Chain' (fun a b => a ≠ b) (monitorWarnings w qs) := by
  have hiff : (q > 100 ∧ q.tmod 100 = 0 ∧ w ≠ q) ↔ (q > 100 ∧ (100 : Int) ∣ q ∧ q ≠ w) := by
    constructor
    · rintro ⟨h1, h2, h3⟩
      exact ⟨h1, Int.dvd_of_tmod_eq_zero h2, fun h => h3 h.symm⟩
    · rintro ⟨h1, h2, h3⟩
      exact ⟨h1, Int.tmod_eq_zero_of_dvd h2, fun h => h3 h.symm⟩
  by_cases hc : q > 100 ∧ q.tmod 100 = 0 ∧ w ≠ q
  · have hc1 := hiff.1 hc
    rw [checkOperationQueueLen_warns q w hc]
    refine ⟨by simp [hc1], by simp [hc1], by simp, by simp, ?_⟩
    intro qs
    exact ⟨(monitorWarnings_chain qs w).2,
      List.Chain'.tail (show List.Chain' _ (w :: monitorWarnings w qs) from
        (monitorWarnings_chain qs w).1)⟩
  · have hc1 : ¬ (q > 100 ∧ (100 : Int) ∣ q ∧ q ≠ w) := fun h => hc (hiff.2 h)
    rw [checkOperationQueueLen_silent q w hc]
    refine ⟨by simp [hc1], by simp [hc1], by simp, by simp, ?_⟩
    intro qs
    exact ⟨(monitorWarnings_chain qs w).2,
      List.Chain'.tail (show List.Chain' _ (w :: monitorWarnings w qs) from
        (monitorWarnings_chain qs w).1)⟩

/-! ## Initialization -/

/-- C9, at the failing input. With a `Type` that is neither empty nor
`"mongodb"`, here `"redis"`, `Initialize` opens nothing, leaves `kvdbEngine`
nil, and still creates the queue and starts the worker; with `"mongodb"` and
an open that succeeds it installs the engine first, with an open that
fails it panics before the queue exists, and with the empty `Type` it
changes nothing. -/
theorem Initialize_unknown_type_starts_worker_without_engine :
    (∀ (E : Type) (OpenMongoKVDB : String → String → String → Option E × Option GoError),
      Initialize OpenMongoKVDB ⟨"redis", "localhost", "goworld", "kvdb"⟩ (Globals.zero E)
        = .returned ⟨none, some [], true⟩)
    ∧ Initialize (fun _ _ _ => (some 1, none)) ⟨"mongodb", "localhost", "goworld", "kvdb"⟩
        (Globals.zero Nat) = .returned ⟨some 1, some [], true⟩
    ∧ Initialize (fun _ _ _ => (none, some "no reachable servers"))
        ⟨"mongodb", "localhost", "goworld", "kvdb"⟩ (Globals.zero Nat)
        = .panicked "no reachable servers" ⟨none, none, false⟩
    ∧ Initialize (fun _ _ _ => (some 1, none)) ⟨"", "localhost", "goworld", "kvdb"⟩
        (Globals.zero Nat) = .returned ⟨none, none, false⟩ := by
  refine ⟨?_, by decide, by decide, by decide⟩
  intro E OpenMongoKVDB
  simp [Initialize, Globals.zero]

/-! ## Range scan: the end of the data -/

/-- C10, as the code has it. Let the first `n` calls of `Next()` succeed with
items `i1..in` whose keys are below `endKey`. Whenever the scan completes and
delivers exactly these `n` items with a nil error, the next `Next()` has
returned an item with key `>= endKey`: the loop has no case for the end of
the data. When the next `Next()` returns an item with key below `endKey`
together with an error, the continuation receives no items and that error.
When it returns such an item with a nil error, the item is appended to the
`n` items and the loop goes on from there: a scan that completes has made
more than `n + 1` calls of `Next()` and delivers either a sequence that
starts with `i1..in` and that item, or no items and a later error. -/
theorem handleGetRangeReq_ends_only_at_endKey {σ : Type} (kvdbEngine : KVDBEngine σ)
    (fuel : Nat) (r : getRangeReq) (s : σ) (cb : Nat) (is : List KVItem)
    (hcb : r.callback = some cb)
    (hyields : Yields (kvdbEngine.Find r.beginKey s).1 0 is)
    (hbelow : ∀ i ∈ is, i.Key < r.endKey)
    (hfuel : is.length < fuel) :
    (∀ evs s1, handleGetRangeReq kvdbEngine fuel r s = some (evs, s1) →
        Event.call cb (.getRange is none) ∈ evs →
        r.endKey ≤ ((kvdbEngine.Find r.beginKey s).1.Next is.length).item.Key)
    ∧ (∀ e, ((kvdbEngine.Find r.beginKey s).1.Next is.length).item.Key < r.endKey →
        ((kvdbEngine.Find r.beginKey s).1.Next is.length).err = some e →
        handleGetRangeReq kvdbEngine fuel r s
          = some (.engineFind r.beginKey :: List.replicate (is.length + 1) .iteratorNext
                    ++ [.call cb (.getRange [] (some e))], (kvdbEngine.Find r.beginKey s).2))
    ∧ (((kvdbEngine.Find r.beginKey s).1.Next is.length).item.Key < r.endKey →
        ((kvdbEngine.Find r.beginKey s).1.Next is.length).err = none →
        scanLoop (kvdbEngine.Find r.beginKey s).1 r.endKey fuel 0 []
          = scanLoop (kvdbEngine.Find r.beginKey s).1 r.endKey (fuel - (is.length + 1))
              (is.length + 1) (is ++ [((kvdbEngine.Find r.beginKey s).1.Next is.length).item])
        ∧ ∀ evs s1, handleGetRangeReq kvdbEngine fuel r s = some (evs, s1) →
          ∃ n, is.length + 1 < n
            ∧ ((∃ more, evs = .engineFind r.beginKey :: List.replicate n .iteratorNext
                  ++ [.call cb (.getRange
                        (is ++ ((kvdbEngine.Find r.beginKey s).1.Next is.length).item :: more)
                        none)])
              ∨ (∃ e, evs = .engineFind r.beginKey :: List.replicate n .iteratorNext
                  ++ [.call cb (.getRange [] (some e))]))) := by
  have herror : ∀ e, ((kvdbEngine.Find r.beginKey s).1.Next is.length).item.Key < r.endKey →
      ((kvdbEngine.Find r.beginKey s).1.Next is.length).err = some e →
      handleGetRangeReq kvdbEngine fuel r s
        = some (.engineFind r.beginKey :: List.replicate (is.length + 1) .iteratorNext
                  ++ [.call cb (.getRange [] (some e))], (kvdbEngine.Find r.beginKey s).2) := by
    intro e hkey herr
    have hscan := scanLoop_error_below_endKey (kvdbEngine.Find r.beginKey s).1 r.endKey fuel is e
      hyields hbelow hkey herr hfuel
    simp only [handleGetRangeReq, hscan, rangeDelivery, hcb]
  have hcont : ((kvdbEngine.Find r.beginKey s).1.Next is.length).item.Key < r.endKey →
      ((kvdbEngine.Find r.beginKey s).1.Next is.length).err = none →
      ∀ evs s1, handleGetRangeReq kvdbEngine fuel r s = some (evs, s1) →
        ∃ n, is.length + 1 < n
          ∧ ((∃ more, evs = .engineFind r.beginKey :: List.replicate n .iteratorNext
                ++ [.call cb (.getRange
                      (is ++ ((kvdbEngine.Find r.beginKey s).1.Next is.length).item :: more)
                      none)])
            ∨ (∃ e, evs = .engineFind r.beginKey :: List.replicate n .iteratorNext
                ++ [.call cb (.getRange [] (some e))])) := by
    intro hkey herr evs s1 hrun
    have htake := scanLoop_take_below_endKey (kvdbEngine.Find r.beginKey s).1 r.endKey fuel is
      hyields hbelow hkey herr hfuel
    simp only [handleGetRangeReq] at hrun
    split at hrun
    · simp at hrun
    · rename_i n ex hscan
      simp only [Option.some.injEq, Prod.mk.injEq] at hrun
      rw [htake] at hscan
      have hn := scanLoop_count _ _ _ _ _ _ _ hscan
      refine ⟨n, hn, ?_⟩
      cases ex with
      | broke out =>
        obtain ⟨more, hmore⟩ := scanLoop_broke_extends _ _ _ _ _ _ _ hscan
        refine Or.inl ⟨more, ?_⟩
        rw [← hrun.1, hmore]
        simp [rangeDelivery, hcb]
      | returned e =>
        refine Or.inr ⟨e, ?_⟩
        rw [← hrun.1]
        simp [rangeDelivery, hcb]
  refine ⟨?_, herror, fun hkey herr =>
    ⟨scanLoop_take_below_endKey _ _ fuel is hyields hbelow hkey herr hfuel, hcont hkey herr⟩⟩
  intro evs s1 hrun hmem
  by_contra hnot
  have hkey := not_le.1 hnot
  cases herr : ((kvdbEngine.Find r.beginKey s).1.Next is.length).err with
  | some e =>
    rw [herror e hkey herr] at hrun
    simp only [Option.some.injEq, Prod.mk.injEq] at hrun
    rw [← hrun.1] at hmem
    simp [List.mem_replicate] at hmem
  | none =>
    obtain ⟨n, _, hevs | hevs⟩ := hcont hkey herr evs s1 hrun
    · obtain ⟨more, hevs⟩ := hevs
      rw [hevs] at hmem
      simp [List.mem_replicate] at hmem
    · obtain ⟨e, hevs⟩ := hevs
      rw [hevs] at hmem
      simp [List.mem_replicate] at hmem

/-- C10, two instances. On the store `{a:1, b:2, c:3, d:4, e:5}` with the end
of the data reported by the zero item and the error `EOF`, the scan of
`["b", "z")` reads the four items `b..e`, and the continuation receives no
items and the error `EOF`. On a cursor that yields `{a,1}`, `{b,2}`, `{x,9}`
the scan of `["a", "c")`, taken after the first item, takes `{b,2}` as a
result and goes on: it makes three calls of `Next()` and delivers
`[{a,1}, {b,2}]`. -/
theorem handleGetRangeReq_ends_only_at_endKey_witness :
    handleGetRangeReq (storeEngine eofResult) 9 ⟨"b", "z", some 7⟩ store5
      = some (.engineFind "b" :: List.replicate (4 + 1) .iteratorNext
                ++ [.call 7 (.getRange [] (some "EOF"))], store5)
    ∧ handleGetRangeReq
        (engineOf (Iterator.ofList [.ok "a" "1", .ok "b" "2", .ok "x" "9"] eofResult)) 9
          ⟨"a", "c", some 7⟩ ()
      = some ([.engineFind "a", .iteratorNext, .iteratorNext, .iteratorNext,
                .call 7 (.getRange [⟨"a", "1"⟩, ⟨"b", "2"⟩] none)], ())
    ∧ ∃ n, 1 + 1 < n
        ∧ ((∃ more, ([.engineFind "a", .iteratorNext, .iteratorNext, .iteratorNext,
                .call 7 (.getRange [⟨"a", "1"⟩, ⟨"b", "2"⟩] none)] : List Event)
              = .engineFind "a" :: List.replicate n .iteratorNext
                  ++ [.call 7 (.getRange ([⟨"a", "1"⟩] ++ ⟨"b", "2"⟩ :: more) none)])
          ∨ (∃ e, ([.engineFind "a", .iteratorNext, .iteratorNext, .iteratorNext,
                .call 7 (.getRange [⟨"a", "1"⟩, ⟨"b", "2"⟩] none)] : List Event)
              = .engineFind "a" :: List.replicate n .iteratorNext
                  ++ [.call 7 (.getRange [] (some e))])) :=
  ⟨(handleGetRangeReq_ends_only_at_endKey (storeEngine eofResult) 9 ⟨"b", "z", some 7⟩ store5 7
      [⟨"b", "2"⟩, ⟨"c", "3"⟩, ⟨"d", "4"⟩, ⟨"e", "5"⟩] rfl ⟨rfl, rfl, rfl, rfl, trivial⟩
      (by
        intro i hi
        rw [String.lt_iff_toList_lt]
        simp only [List.mem_cons, List.mem_singleton, List.not_mem_nil, or_false] at hi
        rcases hi with rfl | rfl | rfl | rfl <;> decide)
      (by decide)).2.1 "EOF" (by rw [String.lt_iff_toList_lt]; decide) rfl,
   by decide,
   ((handleGetRangeReq_ends_only_at_endKey
      (engineOf (Iterator.ofList [.ok "a" "1", .ok "b" "2", .ok "x" "9"] eofResult)) 9
      ⟨"a", "c", some 7⟩ () 7 [⟨"a", "1"⟩] rfl ⟨rfl, trivial⟩
      (by
        intro i hi
        rw [String.lt_iff_toList_lt]
        simp only [List.mem_singleton] at hi
        subst hi
        decide)
      (by decide)).2.2 (by rw [String.lt_iff_toList_lt]; decide) rfl).2 _ () (by decide)⟩

/-- C10 as stated fails. On the store `{a:1, b:2, c:3, d:4, e:5}` the cursor
of `Find("b")` runs out of data after `b, c, d, e`, all below the end key
`"z"`. If the end of the data is reported by the zero item and an error, the
continuation receives no items and that error, not the four items; if it is
reported by the zero item and a nil error, the loop never ends, whatever
the fuel, and nothing is delivered. -/
theorem handleGetRangeReq_end_of_data_counterexample :
    handleGetRangeReq (storeEngine eofResult) 9 ⟨"b", "z", some 7⟩ store5
      = some ([.engineFind "b", .iteratorNext, .iteratorNext, .iteratorNext, .iteratorNext,
                .iteratorNext, .call 7 (.getRange [] (some "EOF"))], store5)
    ∧ handleGetRangeReq (storeEngine eofResult) 9 ⟨"b", "z", some 7⟩ store5
      ≠ some ([.engineFind "b", .iteratorNext, .iteratorNext, .iteratorNext, .iteratorNext,
                .iteratorNext,
                .call 7 (.getRange [⟨"b", "2"⟩, ⟨"c", "3"⟩, ⟨"d", "4"⟩, ⟨"e", "5"⟩] none)],
              store5)
    ∧ ∀ fuel, handleGetRangeReq (storeEngine ⟨⟨"", ""⟩, none⟩) fuel ⟨"b", "z", some 7⟩ store5
        = none := by
  refine ⟨by decide, by decide, ?_⟩
  intro fuel
  have hall : ∀ k, strGE
      (((storeEngine ⟨⟨"", ""⟩, none⟩).Find "b" store5).1.Next k).item.Key "z" = false
      ∧ (((storeEngine ⟨⟨"", ""⟩, none⟩).Find "b" store5).1.Next k).err = none := by
    intro k
    by_cases hk : k < 4
    · interval_cases k <;> decide
    · have hd : ((storeEngine ⟨⟨"", ""⟩, none⟩).Find "b" store5).1.Next k
          = ⟨⟨"", ""⟩, none⟩ := by
        show List.getD _ k _ = _
        exact List.getD_eq_default _ _ (by simp at hk; simpa using hk)
      rw [hd]
      decide
  simp only [handleGetRangeReq]
  rw [scanLoop_never_ends _ _ hall]

end kvdb
